import Mathlib

set_option maxHeartbeats 1000000

/-!
Shallow embedding of the `unplugged-search` repository.

`src/parser.rs` defines a cursor-based query tokenizer (`QueryParser`) whose
state is an index into a vector of chars; every operation only inspects the
suffix of the source starting at the index, so the state is modelled here as
the remaining list of characters.  `src/main.rs` (`handle_search`) contains the
matching / exclusion / scoring / ranking pipeline and `src/lib.rs` supplies the
record type, catalog access and the stop-word list.
-/

/-- Drop the longest suffix whose elements satisfy `p`. -/
def dropTrailing (p : α → Bool) (l : List α) : List α :=
  (l.reverse.dropWhile p).reverse

/-- Rust `str::trim`: drop whitespace characters from both ends.
(ASCII whitespace; the repository's queries and data are ASCII.) -/
def trimStr (s : String) : String :=
  ⟨dropTrailing Char.isWhitespace (s.data.dropWhile Char.isWhitespace)⟩

/-- `ParseResult` from `src/parser.rs`: include terms and exclude terms. -/
structure ParseResult where
  terms : List String
  exclude : List String
deriving DecidableEq

/-- `QueryParser::get_token` from `src/parser.rs` (lines 70-109).
The parser state is the remaining input (`self.source[self.index..]`);
`fuel` bounds the recursion depth of the self-call in the dash branch, and an
outer `none` means the fuel ran out.  The inner option is the Rust return
value; `peek_next().is_some()` is `self.index + 1 < len`, i.e. at least two
characters remain after the dash run. -/
def get_token : Nat → List Char → Option (Option String × List Char)
  | 0, _ => none
  | fuel+1, l =>
    let l := l.dropWhile Char.isWhitespace
    match l with
    | [] => some (none, [])
    | c :: rest =>
      if c = '-' then
        let l1 := (c :: rest).dropWhile (fun ch => ch == '-')
        if 2 ≤ l1.length then
          match get_token fuel l1 with
          | none => none
          | some (o, l2) => some (o.map (fun s => ⟨'-' :: s.data⟩), l2)
        else some (some "", l1)
      else if c = '"' then
        some (some ⟨rest.takeWhile (fun ch => ch != '"')⟩,
              (rest.dropWhile (fun ch => ch != '"')).tail)
      else if ¬ c.isWhitespace then
        some (some ⟨(c :: rest).takeWhile (fun ch => !ch.isWhitespace)⟩,
              (c :: rest).dropWhile (fun ch => !ch.isWhitespace))
      else some (some "", c :: rest)

/-- `QueryParser::parse` from `src/parser.rs` (lines 111-127): repeatedly call
`get_token`; a token starting with `'-'` is dash-stripped and, when the
stripped token is nonempty, its trim is an exclude entry; any other token's
trim is pushed onto `terms` unconditionally.  `fuel` bounds the number of loop
iterations (each produced token consumes at least one character). -/
def parse : Nat → List Char → Option ParseResult
  | 0, _ => none
  | fuel+1, l =>
    match get_token (fuel+1) l with
    | none => none
    | some (none, _) => some ⟨[], []⟩
    | some (some token, l') =>
      match parse fuel l' with
      | none => none
      | some r =>
        if token.data.head? = some '-' then
          if (⟨token.data.dropWhile (fun ch => ch == '-')⟩ : String) = "" then some r
          else some ⟨r.terms,
                     trimStr ⟨token.data.dropWhile (fun ch => ch == '-')⟩ :: r.exclude⟩
        else some ⟨trimStr token :: r.terms, r.exclude⟩

/-- `parse_query` from `src/parser.rs` (lines 135-138).  The fuel
`length + 1` always suffices (proved below), so the default branch of `getD`
is never reached. -/
def parse_query (s : String) : ParseResult :=
  (parse (s.data.length + 1) s.data).getD ⟨[], []⟩

/-- The embedding reproduces the repository's own unit test `test_get_token`
/ `test_parse` behaviour on its query. -/
theorem embedding_matches_repo_test_parse :
    parse_query "    duck duck go \"spy dog\" bat -cat  " =
      ⟨["duck", "duck", "go", "spy dog", "bat"], ["cat"]⟩ := by decide

/-- The embedding reproduces the repository's own unit test `test_parse_edge`
(`"-  nixos"` excludes `nixos`, quoted `"-- kde"` excludes `kde`, interior
hyphens are plain text). -/
theorem embedding_matches_repo_test_parse_edge :
    parse_query "  -  nixos \"-- kde\"  ----- docker low-memory-monitor  dnf-fedora " =
      ⟨["low-memory-monitor", "dnf-fedora"], ["nixos", "kde", "docker"]⟩ := by decide

/-- `Episode` from `src/lib.rs` (lines 4-12). -/
structure Episode where
  id : Int
  title : String
  date : String
  duration : String
  tags : List String
  url : String
deriving DecidableEq

/-- Rust `str::contains`: the pattern occurs as a contiguous substring. -/
def strContains (s pat : String) : Bool := decide (pat.data <:+: s.data)

/-- Rust `String::to_lowercase` (ASCII range, which covers the catalog). -/
def lowerStr (s : String) : String := ⟨s.data.map Char.toLower⟩

/-- The stop-word array of `load_common_words` in `src/lib.rs` (lines 123-137),
verbatim (including its duplicated entries, which a set collects away). -/
def common_words : List String :=
  ["the", "be", "is", "are", "to", "of", "and", "a", "an", "in", "that", "have", "i", "it",
   "for", "not", "on", "with", "he", "as", "you", "do", "at", "this", "but", "his", "by",
   "from", "they", "we", "say", "her", "she", "or", "an", "will", "my", "one", "all", "would",
   "there", "their", "what", "so", "up", "out", "if", "about", "who", "get", "which", "me",
   "when", "make", "can", "like", "time", "no", "just", "him", "know", "take", "people",
   "into", "year", "your", "some", "could", "them", "see", "other", "than", "then", "now",
   "look", "only", "come", "its", "it's", "over", "think", "also", "back", "after", "use",
   "two", "how", "our", "work", "first", "well", "way", "even", "new", "want", "because",
   "any", "these", "give", "day", "most", "us", "was", "from"]

/-- `get_episodes_from_ids` from `src/lib.rs` (lines 34-38): resolve every id
through the id map; a missing id is the `expect` panic, modelled as `none`. -/
def get_episodes_from_ids (ids : List Nat) (by_id : List (Nat × Episode)) :
    Option (List Episode) :=
  match ids with
  | [] => some []
  | id :: rest =>
    match List.lookup id by_id with
    | none => none
    | some ep => (get_episodes_from_ids rest by_id).map (ep :: ·)

/-- `handle_search` lines 87-94: resolve the whole tag index up front
(every tag's id list, independent of the query). -/
def resolveTags (by_tag : List (String × List Nat)) (by_id : List (Nat × Episode)) :
    Option (List (String × List Episode)) :=
  match by_tag with
  | [] => some []
  | (tag, ids) :: rest =>
    match get_episodes_from_ids ids by_id with
    | none => none
    | some eps => (resolveTags rest by_id).map ((tag, eps) :: ·)

/-- `handle_search` lines 79-83: lower-case the parsed include terms, drop
stop words, and collect into a set (modelled as a deduplicated list). -/
def searchTerms (q : String) : List String :=
  (((parse_query q).terms.map lowerStr).filter
    (fun s => decide (s ∉ common_words))).dedup

/-- `handle_search` line 85: the exclude set (no lower-casing). -/
def excludeTerms (q : String) : List String := (parse_query q).exclude.dedup

/-- The tag-match criterion of `handle_search` lines 97-99: some (lower-cased)
term is a substring of the raw tag-index key, or that key is a substring of
the term. -/
def tagMatch (terms : List String) (tag : String) : Bool :=
  terms.any (fun term => strContains tag term || strContains term tag)

/-- `HashSet::insert` on episodes, modelled on a duplicate-free list. -/
def insertEp (acc : List Episode) (ep : Episode) : List Episode :=
  if ep ∈ acc then acc else acc ++ [ep]

/-- `handle_search` lines 96-103: for every tag-index entry whose key passes
`tagMatch`, add all episodes listed under that key to the result set. -/
def tagLoop (terms : List String) (resolved : List (String × List Episode))
    (acc : List Episode) : List Episode :=
  resolved.foldl
    (fun acc p => if tagMatch terms p.1 then p.2.foldl insertEp acc else acc) acc

/-- `handle_search` lines 105-116: a record also matches when some term equals
the decimal form of its id-map key or is a substring of the lower-cased
title. -/
def idLoop (terms : List String) (by_id : List (Nat × Episode))
    (acc : List Episode) : List Episode :=
  by_id.foldl
    (fun acc p =>
      if terms.contains (toString p.1)
          || terms.any (fun term => strContains (lowerStr p.2.title) term) then
        insertEp acc p.2
      else acc) acc

/-- The exclusion test of `handle_search` lines 122-127: some tag of the
record contains some exclude token as a substring. -/
def excludedBy (exclude : List String) (ep : Episode) : Bool :=
  ep.tags.any (fun tag => exclude.any (fun token => strContains tag token))

/-- `handle_search` lines 120-128: keep exactly the records not excluded. -/
def filterExcluded (exclude : List String) (l : List Episode) : List Episode :=
  l.filter (fun ep => !excludedBy exclude ep)

/-- The score of `handle_search` lines 135-152: 50 per tag that is a term or
contains a term, plus 100 per term contained in the lower-cased title. -/
def score (terms : List String) (ep : Episode) : Int :=
  (ep.tags.foldl
    (fun acc tag =>
      acc + if terms.contains tag || terms.any (fun term => strContains tag term)
            then 50 else 0) 0)
  + terms.foldl
      (fun acc term =>
        acc + if strContains (lowerStr ep.title) term then 100 else 0) 0

/-- The comparator of `handle_search` line 157: score descending. -/
def scoreGe (a b : Int × Episode) : Prop := b.1 ≤ a.1

instance : DecidableRel scoreGe := fun a b => inferInstanceAs (Decidable (b.1 ≤ a.1))

instance : IsTotal (Int × Episode) scoreGe := ⟨fun a b => le_total b.1 a.1⟩

instance : IsTrans (Int × Episode) scoreGe := ⟨fun _ _ _ h h' => le_trans h' h⟩

/-- `handle_search` line 157: sort the scored records by score descending
(a deterministic stable sort; the Rust sort's tie order is unspecified). -/
def sortByScore (l : List (Int × Episode)) : List (Int × Episode) :=
  List.insertionSort scoreGe l

/-- The search pipeline of `handle_search` (`src/main.rs` lines 70-178) up to
the scored, ranked list: parse, stop-word-filter, resolve the tag index
(`none` = the `expect` panic on a dangling id), match by tag then by id/title,
apply the exclusion filter, score and sort. -/
def searchScored (by_tag : List (String × List Nat)) (by_id : List (Nat × Episode))
    (q : String) : Option (List (Int × Episode)) :=
  match resolveTags by_tag by_id with
  | none => none
  | some resolved =>
    let terms := searchTerms q
    let results := idLoop terms by_id (tagLoop terms resolved [])
    let results := filterExcluded (excludeTerms q) results
    some (sortByScore (results.map (fun ep => (score terms ep, ep))))

/-- The record list `handle_search` finally renders (lines 175-178). -/
def search (by_tag : List (String × List Nat)) (by_id : List (Nat × Episode))
    (q : String) : Option (List Episode) :=
  (searchScored by_tag by_id q).map (List.map Prod.snd)


/-! ### List lemmas for the trim operation -/

theorem dropWhile_head_false (p : α → Bool) :
    ∀ (l : List α) (c : α) (t : List α), l.dropWhile p = c :: t → p c = false := by
  intro l
  induction l with
  | nil => intro c t h; simp [List.dropWhile] at h
  | cons a l ih =>
    intro c t h
    rw [List.dropWhile_cons] at h
    by_cases hpa : p a = true
    · exact ih c t (by simpa [hpa] using h)
    · have hne : p a = false := by simpa using hpa
      simp [hne] at h
      rw [← h.1]; exact hne

theorem dropWhile_dropWhile (p : α → Bool) (l : List α) :
    (l.dropWhile p).dropWhile p = l.dropWhile p := by
  cases h : l.dropWhile p with
  | nil => simp
  | cons c t =>
    have hc := dropWhile_head_false p l c t h
    simp [List.dropWhile_cons, hc]

theorem dropWhile_append_last (p : α → Bool) (c : α) :
    ∀ xs : List α, (xs ++ [c]).dropWhile p = [] ∨
      ∃ ys, (xs ++ [c]).dropWhile p = ys ++ [c] := by
  intro xs
  induction xs with
  | nil =>
    by_cases hc : p c = true
    · left; simp [List.dropWhile, hc]
    · right; exact ⟨[], by simp [List.dropWhile, hc]⟩
  | cons a xs ih =>
    by_cases ha : p a = true
    · simpa [List.dropWhile_cons, ha] using ih
    · right
      exact ⟨a :: xs, by simp [List.dropWhile_cons, ha]⟩

theorem dropTrailing_dropTrailing (p : α → Bool) (l : List α) :
    dropTrailing p (dropTrailing p l) = dropTrailing p l := by
  unfold dropTrailing
  rw [List.reverse_reverse, dropWhile_dropWhile]

theorem dropWhile_dropTrailing (p : α → Bool) (l : List α) (h : l.dropWhile p = l) :
    (dropTrailing p l).dropWhile p = dropTrailing p l := by
  cases l with
  | nil => simp [dropTrailing]
  | cons c t =>
    have hc : p c = false := by
      rw [List.dropWhile_cons] at h
      by_cases hpc : p c = true
      · exfalso
        have hlen : (t.dropWhile p).length ≤ t.length :=
          (List.dropWhile_sublist p).length_le
        rw [if_pos hpc] at h
        have : t.length + 1 ≤ t.length := by
          calc t.length + 1 = (c :: t).length := rfl
          _ = (t.dropWhile p).length := by rw [h]
          _ ≤ t.length := hlen
        omega
      · simpa using hpc
    unfold dropTrailing
    rw [List.reverse_cons]
    rcases dropWhile_append_last p c t.reverse with h0 | ⟨ys, hys⟩
    · rw [h0]; simp
    · rw [hys, List.reverse_append]
      simp [List.dropWhile_cons, hc]

theorem trimStr_trimStr (s : String) : trimStr (trimStr s) = trimStr s := by
  unfold trimStr
  have hdata :
      (⟨dropTrailing Char.isWhitespace
          (s.data.dropWhile Char.isWhitespace)⟩ : String).data =
        dropTrailing Char.isWhitespace (s.data.dropWhile Char.isWhitespace) := rfl
  rw [hdata]
  have h1 : (dropTrailing Char.isWhitespace
      (s.data.dropWhile Char.isWhitespace)).dropWhile Char.isWhitespace =
      dropTrailing Char.isWhitespace (s.data.dropWhile Char.isWhitespace) :=
    dropWhile_dropTrailing _ _ (dropWhile_dropWhile _ _)
  rw [h1, dropTrailing_dropTrailing]

/-! ### Fuel lemmas for the tokenizer -/

theorem dashRun_length_le (rest : List Char) :
    (('-' :: rest).dropWhile (fun ch => ch == '-')).length ≤ rest.length := by
  rw [List.dropWhile_cons]
  simp only [beq_self_eq_true, if_true]
  exact (List.dropWhile_sublist _).length_le

theorem dropWhile_ws_length_le (l : List Char) (c : Char) (rest : List Char)
    (h : l.dropWhile Char.isWhitespace = c :: rest) : rest.length + 1 ≤ l.length := by
  have hs : (l.dropWhile Char.isWhitespace).length ≤ l.length :=
    (List.dropWhile_sublist _).length_le
  rw [h] at hs
  simpa using hs

theorem get_token_fuel :
    ∀ fuel fuel' (l : List Char), l.length < fuel → l.length < fuel' →
      get_token fuel l = get_token fuel' l := by
  intro fuel
  induction fuel with
  | zero => intro fuel' l h _; exact absurd h (Nat.not_lt_zero _)
  | succ fuel ih =>
    intro fuel' l h h'
    cases fuel' with
    | zero => exact absurd h' (Nat.not_lt_zero _)
    | succ fuel' =>
      simp only [get_token]
      rcases hlw : l.dropWhile Char.isWhitespace with _ | ⟨c, rest⟩
      · rfl
      · have hrest := dropWhile_ws_length_le l c rest hlw
        by_cases hc : c = '-'
        · subst hc
          simp only [if_pos rfl]
          have hl1 := dashRun_length_le rest
          rw [ih fuel' (('-' :: rest).dropWhile (fun ch => ch == '-'))
            (by omega) (by omega)]
        · simp only [if_neg hc]

theorem get_token_isSome :
    ∀ fuel (l : List Char), l.length < fuel → (get_token fuel l).isSome := by
  intro fuel
  induction fuel with
  | zero => intro l h; exact absurd h (Nat.not_lt_zero _)
  | succ fuel ih =>
    intro l h
    simp only [get_token]
    rcases hlw : l.dropWhile Char.isWhitespace with _ | ⟨c, rest⟩
    · rfl
    · have hrest := dropWhile_ws_length_le l c rest hlw
      by_cases hc : c = '-'
      · subst hc
        simp only [if_pos rfl]
        have hl1 := dashRun_length_le rest
        by_cases h2 : 2 ≤ (('-' :: rest).dropWhile (fun ch => ch == '-')).length
        · rw [if_pos h2]
          obtain ⟨x, hx⟩ := Option.isSome_iff_exists.mp
            (ih (('-' :: rest).dropWhile (fun ch => ch == '-')) (by omega))
          obtain ⟨o, l2⟩ := x
          rw [hx]
          simp
        · rw [if_neg h2]
          rfl
      · simp only [if_neg hc]
        by_cases hq : c = '"'
        · simp only [if_pos hq]
          rfl
        · simp only [if_neg hq]
          by_cases hw : c.isWhitespace = true
          · rw [if_neg (by simp [hw])]
            rfl
          · rw [if_pos hw]
            rfl

theorem get_token_shrinks :
    ∀ fuel (l l' : List Char) (tok : String),
      get_token fuel l = some (some tok, l') → l'.length < l.length := by
  intro fuel
  induction fuel with
  | zero => intro l l' tok h; simp [get_token] at h
  | succ fuel ih =>
    intro l l' tok h
    simp only [get_token] at h
    rcases hlw : l.dropWhile Char.isWhitespace with _ | ⟨c, rest⟩
    · rw [hlw] at h
      simp at h
    · rw [hlw] at h
      dsimp only at h
      have hrest := dropWhile_ws_length_le l c rest hlw
      have hcw : Char.isWhitespace c = false := dropWhile_head_false _ l c rest hlw
      by_cases hc : c = '-'
      · subst hc
        rw [if_pos rfl] at h
        have hl1 := dashRun_length_le rest
        by_cases h2 : 2 ≤ (('-' :: rest).dropWhile (fun ch => ch == '-')).length
        · rw [if_pos h2] at h
          rcases hg : get_token fuel (('-' :: rest).dropWhile (fun ch => ch == '-')) with
            _ | ⟨o, l2⟩
          · rw [hg] at h
            simp at h
          · rw [hg] at h
            simp only [Option.some.injEq, Prod.mk.injEq] at h
            obtain ⟨ho, hl2⟩ := h
            subst hl2
            cases o with
            | none => simp at ho
            | some s =>
              have hlen2 := ih _ _ s hg
              omega
        · rw [if_neg h2] at h
          simp only [Option.some.injEq, Prod.mk.injEq] at h
          obtain ⟨-, hl'⟩ := h
          rw [← hl']
          omega
      · rw [if_neg hc] at h
        by_cases hq : c = '"'
        · rw [if_pos hq] at h
          simp only [Option.some.injEq, Prod.mk.injEq] at h
          obtain ⟨-, hl'⟩ := h
          have h1 : ((rest.dropWhile (fun ch => ch != '"')).tail).length ≤ rest.length := by
            have ha : (rest.dropWhile (fun ch => ch != '"')).length ≤ rest.length :=
              (List.dropWhile_sublist _).length_le
            have hb := List.length_tail (rest.dropWhile (fun ch => ch != '"'))
            omega
          rw [← hl']
          omega
        · rw [if_neg hq] at h
          rw [if_pos (by simp [hcw])] at h
          simp only [Option.some.injEq, Prod.mk.injEq] at h
          obtain ⟨-, hl'⟩ := h
          have h1 : ((c :: rest).dropWhile (fun ch => !ch.isWhitespace)).length ≤ rest.length := by
            rw [List.dropWhile_cons]
            simp only [hcw, Bool.not_false, if_true]
            exact (List.dropWhile_sublist _).length_le
          rw [← hl']
          omega

theorem parse_fuel :
    ∀ fuel fuel' (l : List Char), l.length < fuel → l.length < fuel' →
      parse fuel l = parse fuel' l := by
  intro fuel
  induction fuel with
  | zero => intro fuel' l h _; exact absurd h (Nat.not_lt_zero _)
  | succ fuel ih =>
    intro fuel' l h h'
    cases fuel' with
    | zero => exact absurd h' (Nat.not_lt_zero _)
    | succ fuel' =>
      simp only [parse]
      have hst : get_token (fuel + 1) l = get_token (fuel' + 1) l :=
        get_token_fuel _ _ _ (by omega) (by omega)
      rw [hst]
      obtain ⟨⟨o, l2⟩, hx⟩ := Option.isSome_iff_exists.mp
        (get_token_isSome (fuel' + 1) l (by omega))
      rw [hx]
      cases o with
      | none => rfl
      | some tok =>
        have hsh := get_token_shrinks _ _ _ _ hx
        dsimp only
        rw [ih fuel' l2 (by omega) (by omega)]

theorem parse_isSome :
    ∀ fuel (l : List Char), l.length < fuel → (parse fuel l).isSome := by
  intro fuel
  induction fuel with
  | zero => intro l h; exact absurd h (Nat.not_lt_zero _)
  | succ fuel ih =>
    intro l h
    simp only [parse]
    obtain ⟨⟨o, l2⟩, hx⟩ := Option.isSome_iff_exists.mp (get_token_isSome (fuel + 1) l h)
    rw [hx]
    cases o with
    | none => rfl
    | some tok =>
      have hsh := get_token_shrinks _ _ _ _ hx
      obtain ⟨r, hr⟩ := Option.isSome_iff_exists.mp (ih l2 (by omega))
      dsimp only
      rw [hr]
      dsimp only
      by_cases hd : tok.data.head? = some '-'
      · rw [if_pos hd]
        by_cases he : (⟨tok.data.dropWhile (fun ch => ch == '-')⟩ : String) = ""
        · rw [if_pos he]
          rfl
        · rw [if_neg he]
          rfl
      · rw [if_neg hd]
        rfl

theorem parse_query_spec (s : String) :
    parse (s.data.length + 1) s.data = some (parse_query s) := by
  obtain ⟨r, hr⟩ := Option.isSome_iff_exists.mp
    (parse_isSome (s.data.length + 1) s.data (by omega))
  rw [parse_query, hr]
  rfl

theorem parse_entries_trimmed :
    ∀ fuel (l : List Char) (r : ParseResult), parse fuel l = some r →
      (∀ t ∈ r.terms, trimStr t = t) ∧ (∀ t ∈ r.exclude, trimStr t = t) := by
  intro fuel
  induction fuel with
  | zero => intro l r h; simp [parse] at h
  | succ fuel ih =>
    intro l r h
    simp only [parse] at h
    rcases hx : get_token (fuel + 1) l with _ | ⟨o, l2⟩
    · rw [hx] at h
      simp at h
    · rw [hx] at h
      cases o with
      | none =>
        dsimp only at h
        simp only [Option.some.injEq] at h
        subst h
        constructor
        · intro t ht; simp at ht
        · intro t ht; simp at ht
      | some tok =>
        dsimp only at h
        rcases hp : parse fuel l2 with _ | r2
        · rw [hp] at h
          simp at h
        · rw [hp] at h
          dsimp only at h
          have ihr := ih l2 r2 hp
          by_cases hd : tok.data.head? = some '-'
          · rw [if_pos hd] at h
            by_cases he : (⟨tok.data.dropWhile (fun ch => ch == '-')⟩ : String) = ""
            · rw [if_pos he] at h
              simp only [Option.some.injEq] at h
              subst h
              exact ihr
            · rw [if_neg he] at h
              simp only [Option.some.injEq] at h
              subst h
              constructor
              · exact ihr.1
              · intro t ht
                rcases List.mem_cons.mp ht with rfl | ht'
                · exact trimStr_trimStr _
                · exact ihr.2 t ht'
          · rw [if_neg hd] at h
            simp only [Option.some.injEq] at h
            subst h
            constructor
            · intro t ht
              rcases List.mem_cons.mp ht with rfl | ht'
              · exact trimStr_trimStr _
              · exact ihr.1 t ht'
            · exact ihr.2

theorem get_token_succ (fuel : Nat) (l : List Char) :
    get_token (fuel + 1) l =
      match l.dropWhile Char.isWhitespace with
      | [] => some (none, [])
      | c :: rest =>
        if c = '-' then
          if 2 ≤ ((c :: rest).dropWhile (fun ch => ch == '-')).length then
            match get_token fuel ((c :: rest).dropWhile (fun ch => ch == '-')) with
            | none => none
            | some (o, l2) => some (o.map (fun s => ⟨'-' :: s.data⟩), l2)
          else some (some "", (c :: rest).dropWhile (fun ch => ch == '-'))
        else if c = '"' then
          some (some ⟨rest.takeWhile (fun ch => ch != '"')⟩,
                (rest.dropWhile (fun ch => ch != '"')).tail)
        else if ¬ c.isWhitespace then
          some (some ⟨(c :: rest).takeWhile (fun ch => !ch.isWhitespace)⟩,
                (c :: rest).dropWhile (fun ch => !ch.isWhitespace))
        else some (some "", c :: rest) := rfl

/-- C1 (corrected): after `get_token` consumes a maximal run of leading
dashes, the code checks `peek_next().is_some()`, i.e. whether at least two
characters remain at the new cursor.  If so it re-enters the *full* tokenizer
(which skips whitespace and handles quotes and further dash runs — not only
rules 3-4) and prefixes `'-'` to the produced token; otherwise (at most one
character remains) the dash run yields the empty token, which `parse` pushes
as an (empty) include term.  Consequently whitespace after a dash run does
not separate the dashes from the next token: `parse_query "--- foo"` returns
`{terms: [], exclude: ["foo"]}`, and a dash run reaching end of input yields
`{terms: [""], exclude: []}` rather than nothing. -/
theorem C1_dash_run :
    (∀ fuel (l rest : List Char), l = '-' :: rest → l.length < fuel →
      (2 ≤ (l.dropWhile (fun ch => ch == '-')).length →
        get_token fuel l =
          (get_token fuel (l.dropWhile (fun ch => ch == '-'))).map
            (fun r => (r.1.map (fun s => (⟨'-' :: s.data⟩ : String)), r.2)))
      ∧ ((l.dropWhile (fun ch => ch == '-')).length < 2 →
        get_token fuel l = some (some "", l.dropWhile (fun ch => ch == '-'))))
    ∧ parse_query "--- foo" = ⟨[], ["foo"]⟩
    ∧ parse_query "---" = ⟨[""], []⟩ := by
  refine ⟨?_, by decide, by decide⟩
  intro fuel l rest hl h
  subst hl
  cases fuel with
  | zero => exact absurd h (Nat.not_lt_zero _)
  | succ fuel =>
    have hlw : ('-' :: rest).dropWhile Char.isWhitespace = '-' :: rest := by
      rw [List.dropWhile_cons, if_neg (by decide)]
    have hle := dashRun_length_le rest
    have hst : get_token fuel (('-' :: rest).dropWhile (fun ch => ch == '-')) =
        get_token (fuel + 1) (('-' :: rest).dropWhile (fun ch => ch == '-')) := by
      simp only [List.length_cons] at h
      exact get_token_fuel _ _ _ (by omega) (by omega)
    constructor
    · intro h2
      conv_lhs => rw [get_token_succ]
      rw [hlw]
      dsimp only
      rw [if_pos rfl, if_pos h2, hst]
      rcases hX : get_token (fuel + 1) (('-' :: rest).dropWhile (fun ch => ch == '-')) with
        _ | ⟨o, l2⟩
      · rfl
      · rfl
    · intro h2
      conv_lhs => rw [get_token_succ]
      rw [hlw]
      dsimp only
      rw [if_pos rfl, if_neg (by omega)]

theorem C1_witness :
    get_token 4 ['-', 'c', 'a'] =
      (get_token 4 (['-', 'c', 'a'].dropWhile (fun ch => ch == '-'))).map
        (fun r => (r.1.map (fun s => (⟨'-' :: s.data⟩ : String)), r.2)) :=
  (C1_dash_run.1 4 ['-', 'c', 'a'] ['c', 'a'] rfl (by decide)).1 (by decide)

/-- C1: the claim's own example fails on the code — `parse_query "--- foo"`
does not return `{terms: ["foo"], exclude: []}`; the dashes capture `foo`
across the whitespace as an exclusion. -/
theorem C1_counterexample :
    parse_query "--- foo" = ⟨[], ["foo"]⟩ ∧ (parse_query "--- foo").terms ≠ ["foo"] := by
  decide

/-- C2: the claim "parse_query never produces an empty string entry" fails:
a dash-only input yields an empty include term (`QueryParser::parse` pushes
plain tokens without an emptiness check), and a dash followed by a quoted
whitespace token yields an empty exclude entry (the emptiness check runs
before trimming). -/
theorem C2_counterexample :
    (parse_query "-").terms = [""] ∧ "" ∈ (parse_query "-").terms
      ∧ (parse_query "-\" \"").exclude = [""] := by
  decide

/-- C2 (corrected): what does hold is that every entry of `terms` and of
`exclude` is trimmed (each pushed entry is the `trim` of some token, and
trimming is idempotent); empty entries are possible, and only exclude tokens
that are empty *before* trimming are dropped. -/
theorem C2_trimmed_entries (s t : String)
    (h : t ∈ (parse_query s).terms ∨ t ∈ (parse_query s).exclude) :
    trimStr t = t := by
  have hall := parse_entries_trimmed _ _ _ (parse_query_spec s)
  rcases h with h | h
  · exact hall.1 t h
  · exact hall.2 t h

theorem C2_witness : trimStr "ab" = "ab" :=
  C2_trimmed_entries "ab" "ab" (Or.inl (by decide))

/-- C3 (confirmed): the parser is total and terminates after a single bounded
pass — with any fuel exceeding the input length, `parse` converges (to
`parse_query`), and `get_token`'s recursion depth is likewise bounded by the
input length (its value is already stable at fuel `length + 1`).  No input,
including unterminated quotes and dash-only runs, produces a failure. -/
theorem C3_total (s : String) (fuel : Nat) (h : s.data.length < fuel) :
    parse fuel s.data = some (parse_query s)
      ∧ get_token fuel s.data = get_token (s.data.length + 1) s.data := by
  constructor
  · rw [parse_fuel fuel (s.data.length + 1) s.data h (by omega)]
    exact parse_query_spec s
  · exact get_token_fuel _ _ _ h (by omega)

theorem C3_witness :
    parse 2 "a".data = some (parse_query "a")
      ∧ get_token 2 "a".data = get_token ("a".data.length + 1) "a".data :=
  C3_total "a" 2 (by decide)

/-! ### Lemmas for the matching pipeline -/

theorem mem_insertEp (acc : List Episode) (e ep : Episode) :
    ep ∈ insertEp acc e ↔ ep ∈ acc ∨ ep = e := by
  unfold insertEp
  by_cases he : e ∈ acc
  · rw [if_pos he]
    constructor
    · exact Or.inl
    · rintro (h | rfl)
      · exact h
      · exact he
  · rw [if_neg he]
    simp

theorem mem_foldl_insertEp :
    ∀ (eps acc : List Episode) (ep : Episode),
      ep ∈ eps.foldl insertEp acc ↔ ep ∈ acc ∨ ep ∈ eps := by
  intro eps
  induction eps with
  | nil => intro acc ep; simp
  | cons e eps ih =>
    intro acc ep
    rw [List.foldl_cons, ih, mem_insertEp]
    simp [List.mem_cons]
    tauto

theorem mem_tagLoop :
    ∀ (resolved : List (String × List Episode)) (terms : List String)
      (acc : List Episode) (ep : Episode),
      ep ∈ tagLoop terms resolved acc ↔
        ep ∈ acc ∨ ∃ p ∈ resolved, tagMatch terms p.1 = true ∧ ep ∈ p.2 := by
  intro resolved
  induction resolved with
  | nil => intro terms acc ep; simp [tagLoop]
  | cons p resolved ih =>
    intro terms acc ep
    obtain ⟨tag, eps⟩ := p
    show ep ∈ tagLoop terms resolved
        (if tagMatch terms tag then eps.foldl insertEp acc else acc) ↔ _
    rw [ih]
    by_cases hm : tagMatch terms tag = true
    · rw [if_pos hm, mem_foldl_insertEp]
      constructor
      · rintro ((h | h) | ⟨p, hp, hc⟩)
        · exact Or.inl h
        · exact Or.inr ⟨(tag, eps), List.mem_cons_self _ _, hm, h⟩
        · exact Or.inr ⟨p, List.mem_cons_of_mem _ hp, hc⟩
      · rintro (h | ⟨p, hp, hc⟩)
        · exact Or.inl (Or.inl h)
        · rcases List.mem_cons.mp hp with rfl | hp'
          · exact Or.inl (Or.inr hc.2)
          · exact Or.inr ⟨p, hp', hc⟩
    · rw [if_neg hm]
      constructor
      · rintro (h | ⟨p, hp, hc⟩)
        · exact Or.inl h
        · exact Or.inr ⟨p, List.mem_cons_of_mem _ hp, hc⟩
      · rintro (h | ⟨p, hp, hc⟩)
        · exact Or.inl h
        · rcases List.mem_cons.mp hp with rfl | hp'
          · exact absurd hc.1 hm
          · exact Or.inr ⟨p, hp', hc⟩

theorem tagLoop_empty_terms :
    ∀ (resolved : List (String × List Episode)) (acc : List Episode),
      tagLoop [] resolved acc = acc := by
  intro resolved
  induction resolved with
  | nil => intro acc; rfl
  | cons p resolved ih =>
    intro acc
    show tagLoop [] resolved
        (if tagMatch [] p.1 then p.2.foldl insertEp acc else acc) = acc
    have hm : tagMatch [] p.1 = false := rfl
    rw [hm]
    simp only [Bool.false_eq_true, if_false]
    exact ih acc

theorem idLoop_empty_terms :
    ∀ (by_id : List (Nat × Episode)) (acc : List Episode),
      idLoop [] by_id acc = acc := by
  intro by_id
  induction by_id with
  | nil => intro acc; rfl
  | cons p by_id ih =>
    intro acc
    show idLoop [] by_id
        (if ([] : List String).contains (toString p.1)
            || ([] : List String).any (fun term => strContains (lowerStr p.2.title) term)
         then insertEp acc p.2 else acc) = acc
    rw [show (([] : List String).contains (toString p.1)
        || ([] : List String).any (fun term => strContains (lowerStr p.2.title) term))
      = false from rfl]
    simp only [Bool.false_eq_true, if_false]
    exact ih acc

theorem get_episodes_from_ids_missing :
    ∀ (ids : List Nat) (by_id : List (Nat × Episode)) (i : Nat),
      i ∈ ids → List.lookup i by_id = none →
      get_episodes_from_ids ids by_id = none := by
  intro ids
  induction ids with
  | nil => intro by_id i h _; simp at h
  | cons j ids ih =>
    intro by_id i hmem hlook
    rcases List.mem_cons.mp hmem with rfl | hmem'
    · unfold get_episodes_from_ids
      rw [hlook]
    · unfold get_episodes_from_ids
      rcases hl : List.lookup j by_id with _ | ep
      · rfl
      · rw [ih by_id i hmem' hlook]
        rfl

theorem resolveTags_missing :
    ∀ (by_tag : List (String × List Nat)) (by_id : List (Nat × Episode))
      (tag : String) (ids : List Nat),
      (tag, ids) ∈ by_tag → get_episodes_from_ids ids by_id = none →
      resolveTags by_tag by_id = none := by
  intro by_tag
  induction by_tag with
  | nil => intro by_id tag ids h _; simp at h
  | cons p by_tag ih =>
    intro by_id tag ids hmem hnone
    obtain ⟨tag', ids'⟩ := p
    rcases List.mem_cons.mp hmem with heq | hmem'
    · obtain ⟨h1, h2⟩ := Prod.mk.injEq .. ▸ congrArg id heq
      unfold resolveTags
      rw [← h2, hnone]
    · unfold resolveTags
      rcases hg : get_episodes_from_ids ids' by_id with _ | eps
      · rfl
      · rw [ih by_id tag ids hmem' hnone]
        rfl

theorem foldl_add_if (k : Int) (f : α → Bool) :
    ∀ (l : List α) (init : Int),
      l.foldl (fun acc x => acc + if f x then k else 0) init
        = init + k * (l.countP f : Int) := by
  intro l
  induction l with
  | nil => intro init; simp
  | cons a l ih =>
    intro init
    rw [List.foldl_cons, ih, List.countP_cons]
    by_cases hf : f a = true
    · simp only [hf, if_true, if_pos]
      push_cast
      ring
    · simp only [hf, if_false, if_neg]
      push_cast
      simp [hf]

/-- C4 (corrected): the matcher's tag-match criterion is bidirectional
substring containment between the (lower-cased) term and the *raw* tag-index
key: a record enters the candidate set through the tag loop exactly when some
index entry listing it has a key `tag` with `tag.contains(term)` or
`term.contains(tag)`.  The tag text itself is *not* lower-cased by the code,
so the comparison is case-insensitive only on the term side. -/
theorem C4_tag_criterion :
    (∀ (terms : List String) (tag : String), tagMatch terms tag = true ↔
        ∃ term ∈ terms, strContains tag term = true ∨ strContains term tag = true)
    ∧ (∀ (terms : List String) (resolved : List (String × List Episode))
        (acc : List Episode) (ep : Episode),
        ep ∈ tagLoop terms resolved acc ↔
          ep ∈ acc ∨ ∃ p ∈ resolved, tagMatch terms p.1 = true ∧ ep ∈ p.2) := by
  constructor
  · intro terms tag
    simp [tagMatch, List.any_eq_true]
  · intro terms resolved acc ep
    exact mem_tagLoop resolved terms acc ep

/-- C4: the claimed case-insensitivity on the tag side fails — with catalog
tag "Networking" (upper case) and query "networking", the lower-cased tag
does contain the term, but the code's criterion compares the raw tag and the
record is not returned at all. -/
theorem C4_counterexample :
    tagMatch ["networking"] "Networking" = false
      ∧ strContains (lowerStr "Networking") "networking" = true
      ∧ search [("Networking", [1])] [(1, ⟨1, "x", "", "", ["Networking"], ""⟩)]
          "networking" = some [] := by
  decide

/-- C5 (confirmed): when stop-word filtering empties the term set, the match
step produces no candidate and the search returns the empty ordered sequence
(given a catalog whose tag index resolves, per the §3 invariant). -/
theorem C5_stopworded_query (by_tag : List (String × List Nat))
    (by_id : List (Nat × Episode)) (q : String)
    (resolved : List (String × List Episode))
    (hres : resolveTags by_tag by_id = some resolved)
    (hterms : searchTerms q = []) :
    idLoop (searchTerms q) by_id (tagLoop (searchTerms q) resolved []) = []
      ∧ searchScored by_tag by_id q = some []
      ∧ search by_tag by_id q = some [] := by
  have hmatch : idLoop (searchTerms q) by_id (tagLoop (searchTerms q) resolved []) = [] := by
    rw [hterms, tagLoop_empty_terms, idLoop_empty_terms]
  have hscored : searchScored by_tag by_id q = some [] := by
    unfold searchScored
    rw [hres]
    dsimp only
    rw [hterms, tagLoop_empty_terms, idLoop_empty_terms]
    rfl
  refine ⟨hmatch, hscored, ?_⟩
  show (searchScored by_tag by_id q).map (List.map Prod.snd) = some []
  rw [hscored]
  rfl

theorem C5_witness :
    searchScored [("rust", [1])] [(1, ⟨1, "Wire Shark Basics", "", "", ["rust"], ""⟩)]
        "the of and" = some []
      ∧ search [("rust", [1])] [(1, ⟨1, "Wire Shark Basics", "", "", ["rust"], ""⟩)]
        "the of and" = some [] :=
  (C5_stopworded_query [("rust", [1])]
    [(1, ⟨1, "Wire Shark Basics", "", "", ["rust"], ""⟩)] "the of and"
    [("rust", [⟨1, "Wire Shark Basics", "", "", ["rust"], ""⟩])]
    (by decide) (by decide)).2

/-- C6 (confirmed): the score is `50 × (tags that equal some term or contain
some term) + 100 × (distinct terms contained in the lower-cased title)`; it
is a non-negative integer, and appending to the record one further tag that
matches an existing term (title unchanged) raises the score by exactly 50. -/
theorem C6_score_formula :
    (∀ (terms : List String) (ep : Episode),
        score terms ep =
          50 * ((ep.tags.countP (fun tag =>
              terms.contains tag || terms.any (fun term => strContains tag term))) : Int)
          + 100 * ((terms.countP (fun term => strContains (lowerStr ep.title) term)) : Int))
    ∧ (∀ (terms : List String) (ep : Episode), 0 ≤ score terms ep)
    ∧ (∀ (terms : List String) (ep : Episode) (g : String),
        (terms.contains g || terms.any (fun term => strContains g term)) = true →
        score terms { ep with tags := ep.tags ++ [g] } = score terms ep + 50) := by
  have hform : ∀ (terms : List String) (ep : Episode),
      score terms ep =
        50 * ((ep.tags.countP (fun tag =>
            terms.contains tag || terms.any (fun term => strContains tag term))) : Int)
        + 100 * ((terms.countP (fun term => strContains (lowerStr ep.title) term)) : Int) := by
    intro terms ep
    unfold score
    rw [foldl_add_if, foldl_add_if]
    ring
  refine ⟨hform, ?_, ?_⟩
  · intro terms ep
    rw [hform]
    positivity
  · intro terms ep g hg
    rw [hform, hform]
    have htags : ({ ep with tags := ep.tags ++ [g] } : Episode).tags = ep.tags ++ [g] := rfl
    have htitle : ({ ep with tags := ep.tags ++ [g] } : Episode).title = ep.title := rfl
    rw [htags, htitle, List.countP_append]
    have hone : ([g].countP (fun tag =>
        terms.contains tag || terms.any (fun term => strContains tag term))) = 1 := by
      rw [List.countP_cons]
      simp only [List.countP_nil]
      rw [if_pos hg]
    rw [hone]
    push_cast
    ring

theorem C6_witness :
    score ["rust"] ⟨1, "t", "", "", ["x", "rust"], ""⟩
      = score ["rust"] ⟨1, "t", "", "", ["x"], ""⟩ + 50 :=
  C6_score_formula.2.2 ["rust"] ⟨1, "t", "", "", ["x"], ""⟩ "rust" (by decide)

/-- C7 (confirmed): the exclusion filter retains exactly the candidates none
of whose tags contains any exclude token as a substring; with no exclude
terms it is the identity; and the exclusion test depends only on the record's
tags (never on title or id). -/
theorem C7_exclusion_filter :
    (∀ (exclude : List String) (l : List Episode) (ep : Episode),
        ep ∈ filterExcluded exclude l ↔
          ep ∈ l ∧ ¬ ∃ tag ∈ ep.tags, ∃ token ∈ exclude, strContains tag token = true)
    ∧ (∀ l : List Episode, filterExcluded [] l = l)
    ∧ (∀ (exclude : List String) (e1 e2 : Episode), e1.tags = e2.tags →
        excludedBy exclude e1 = excludedBy exclude e2) := by
  refine ⟨?_, ?_, ?_⟩
  · intro exclude l ep
    unfold filterExcluded
    rw [List.mem_filter]
    simp [excludedBy, List.any_eq_true]
  · intro l
    unfold filterExcluded
    apply List.filter_eq_self.mpr
    intro ep _
    simp [excludedBy]
  · intro exclude e1 e2 h
    unfold excludedBy
    rw [h]

theorem C7_witness :
    excludedBy ["net"] ⟨1, "the net", "", "", ["食"], ""⟩
      = excludedBy ["net"] ⟨2, "other", "", "", ["食"], ""⟩ :=
  C7_exclusion_filter.2.2 ["net"] ⟨1, "the net", "", "", ["食"], ""⟩
    ⟨2, "other", "", "", ["食"], ""⟩ rfl

/-- C8 (confirmed): any list the search pipeline returns is ordered by score
descending — each element's score is greater than or equal to every later
element's score (tie order unspecified; the model uses a stable sort). -/
theorem C8_output_sorted (by_tag : List (String × List Nat))
    (by_id : List (Nat × Episode)) (q : String) (l : List (Int × Episode))
    (h : searchScored by_tag by_id q = some l) : List.Sorted scoreGe l := by
  unfold searchScored at h
  rcases hres : resolveTags by_tag by_id with _ | resolved
  · rw [hres] at h
    simp at h
  · rw [hres] at h
    dsimp only at h
    simp only [Option.some.injEq] at h
    subst h
    exact List.sorted_insertionSort scoreGe _

theorem C8_witness :
    List.Sorted scoreGe
      [((100 : Int), (⟨2, "cooking", "", "", ["food"], ""⟩ : Episode)),
       (0, ⟨1, "zzz", "", "", ["rust"], ""⟩)] :=
  C8_output_sorted [("rust", [1]), ("food", [2])]
    [(1, ⟨1, "zzz", "", "", ["rust"], ""⟩), (2, ⟨2, "cooking", "", "", ["food"], ""⟩)]
    "rustlang cooking" _ (by decide)

/-- C9 (confirmed): if any id listed under any tag-index key is absent from
the id mapping, every search fails (the `expect` panic, modelled as `none`)
before producing any result — the tag index is resolved in full up front, so
no partial result set is ever returned and the missing id is never skipped. -/
theorem C9_dangling_id (by_tag : List (String × List Nat))
    (by_id : List (Nat × Episode)) (q : String) (tag : String)
    (ids : List Nat) (i : Nat)
    (hmem : (tag, ids) ∈ by_tag) (hi : i ∈ ids)
    (hlook : List.lookup i by_id = none) :
    searchScored by_tag by_id q = none ∧ search by_tag by_id q = none := by
  have hres : resolveTags by_tag by_id = none :=
    resolveTags_missing _ _ _ _ hmem (get_episodes_from_ids_missing _ _ _ hi hlook)
  have h1 : searchScored by_tag by_id q = none := by
    unfold searchScored
    rw [hres]
  refine ⟨h1, ?_⟩
  show (searchScored by_tag by_id q).map (List.map Prod.snd) = none
  rw [h1]
  rfl

theorem C9_witness :
    searchScored [("a", [5])] [] "q" = none ∧ search [("a", [5])] [] "q" = none :=
  C9_dangling_id [("a", [5])] [] "q" "a" [5] 5 (by decide) (by decide) rfl

/-- C10 (confirmed, implicit behavior): the matcher admits a record whose tag
is a strict substring of an include term ("rustlang" contains the tag
"rust"), but the scorer's tag contribution requires the tag to equal or
*contain* a term, so the record scores 0 when its title matches nothing —
and it still appears in the ranked output, after the positive-score
records. -/
theorem C10_zero_score :
    searchScored [("rust", [1]), ("food", [2])]
        [(1, ⟨1, "zzz", "", "", ["rust"], ""⟩), (2, ⟨2, "cooking", "", "", ["food"], ""⟩)]
        "rustlang cooking"
      = some [(100, ⟨2, "cooking", "", "", ["food"], ""⟩),
              (0, ⟨1, "zzz", "", "", ["rust"], ""⟩)]
    ∧ strContains "rustlang" "rust" = true
    ∧ score ["rustlang", "cooking"] ⟨1, "zzz", "", "", ["rust"], ""⟩ = 0 := by
  decide
